import Mathlib

/-!
Verification of the RFO optimiser core of this repository
(`autode/opt/optimisers/rfo.py`), its directory/atom decorators
(`autode/utils.py`) and the rdkit conformer deduplication
(`autode/conformers/conformers.py`), as a shallow embedding over ℚ.

Floating point arithmetic is modelled by exact rational arithmetic; the
eigen-decomposition produced by `np.linalg.eigh` is abstract: the embedding
takes its outputs (an ascending list of eigenvalues, an eigenvector) as
inputs, exactly as the selection and stepping code in the source consumes
them.
-/

namespace AutodE

/-! ### RFO step generator: the augmented Hessian (`RFOptimiser._step`)

`aug_H = np.zeros(shape=(h_n + 1, h_n + 1))` followed by three block
assignments.  Each numpy slice assignment is modelled as a function update
on the matrix, applied in the source's order. -/

/-- `np.zeros(shape=(m, m))`. -/
def zerosM (m : ℕ) : Fin m → Fin m → ℚ := fun _ _ => 0

/-- `aug_H[:h_n, :h_n] = self._coords.h` : overwrite the top-left n×n block. -/
def setTopLeft {n : ℕ} (M : Fin (n + 1) → Fin (n + 1) → ℚ)
    (H : Fin n → Fin n → ℚ) : Fin (n + 1) → Fin (n + 1) → ℚ :=
  fun i j =>
    if hi : i.val < n then
      if hj : j.val < n then H ⟨i.val, hi⟩ ⟨j.val, hj⟩ else M i j
    else M i j

/-- `aug_H[-1, :h_n] = self._coords.g` : overwrite the last row, first n columns. -/
def setLastRow {n : ℕ} (M : Fin (n + 1) → Fin (n + 1) → ℚ)
    (g : Fin n → ℚ) : Fin (n + 1) → Fin (n + 1) → ℚ :=
  fun i j =>
    if i.val = n then
      if hj : j.val < n then g ⟨j.val, hj⟩ else M i j
    else M i j

/-- `aug_H[:h_n, -1] = self._coords.g` : overwrite the last column, first n rows. -/
def setLastCol {n : ℕ} (M : Fin (n + 1) → Fin (n + 1) → ℚ)
    (g : Fin n → ℚ) : Fin (n + 1) → Fin (n + 1) → ℚ :=
  fun i j =>
    if j.val = n then
      if hi : i.val < n then g ⟨i.val, hi⟩ else M i j
    else M i j

/-- The augmented Hessian built by `RFOptimiser._step`: a zero
`(n+1)×(n+1)` matrix whose top-left block, last row and last column are
assigned in the source's order.  The corner entry is never assigned. -/
def aug_H {n : ℕ} (H : Fin n → Fin n → ℚ) (g : Fin n → ℚ) :
    Fin (n + 1) → Fin (n + 1) → ℚ :=
  setLastCol (setLastRow (setTopLeft (zerosM (n + 1)) H) g) g

/-- `delta_s = aug_H_v[:-1, mode] / aug_H_v[-1, mode]` : the raw RFO step from
the selected eigenvector `v` of the augmented Hessian, its leading `n`
components divided componentwise by its final component.  There is no guard
on the division: the quotient is formed for every `v`, including when the
final component is zero. -/
def delta_s {n : ℕ} (v : Fin (n + 1) → ℚ) : Fin n → ℚ :=
  fun i => v i.castSucc / v (Fin.last n)

/-- `mode = np.where(np.abs(aug_H_lmda) > 1e-16)[0][0]` : the index of the
first eigenvalue (eigh returns them in ascending order) whose magnitude
exceeds `1e-16`; `none` when no eigenvalue qualifies (numpy raises there). -/
def select_mode : List ℚ → Option ℕ
  | [] => none
  | x :: xs =>
      if 1 / 10 ^ 16 < |x| then some 0 else (select_mode xs).map (· + 1)

/-- The top-left `n × n` block of the augmented Hessian is `H`. -/
lemma aug_H_top_left {n : ℕ} (H : Fin n → Fin n → ℚ) (g : Fin n → ℚ)
    (i j : Fin n) : aug_H H g i.castSucc j.castSucc = H i j := by
  simp [aug_H, setLastCol, setLastRow, setTopLeft, Nat.ne_of_lt i.isLt,
    Nat.ne_of_lt j.isLt, i.isLt, j.isLt]

/-- The last row of the augmented Hessian (corner excluded) is `g`. -/
lemma aug_H_last_row {n : ℕ} (H : Fin n → Fin n → ℚ) (g : Fin n → ℚ)
    (j : Fin n) : aug_H H g (Fin.last n) j.castSucc = g j := by
  simp [aug_H, setLastCol, setLastRow, setTopLeft, Nat.ne_of_lt j.isLt, j.isLt]

/-- The last column of the augmented Hessian (corner excluded) is `g`. -/
lemma aug_H_last_col {n : ℕ} (H : Fin n → Fin n → ℚ) (g : Fin n → ℚ)
    (i : Fin n) : aug_H H g i.castSucc (Fin.last n) = g i := by
  simp [aug_H, setLastCol, setLastRow, setTopLeft, Nat.ne_of_lt i.isLt, i.isLt]

/-- The corner entry of the augmented Hessian is `0` (never assigned). -/
lemma aug_H_corner {n : ℕ} (H : Fin n → Fin n → ℚ) (g : Fin n → ℚ) :
    aug_H H g (Fin.last n) (Fin.last n) = 0 := by
  simp [aug_H, setLastCol, setLastRow, setTopLeft, zerosM]

/-- The augmented Hessian is symmetric whenever `H` is. -/
lemma aug_H_symm {n : ℕ} (H : Fin n → Fin n → ℚ) (g : Fin n → ℚ)
    (hH : ∀ i j, H i j = H j i) (i j : Fin (n + 1)) :
    aug_H H g i j = aug_H H g j i := by
  simp only [aug_H, setLastCol, setLastRow, setTopLeft, zerosM]
  by_cases hi : i.val < n
  · by_cases hj : j.val < n
    · simp [hi, hj, Nat.ne_of_lt hi, Nat.ne_of_lt hj, hH]
    · have hj2 : j.val = n := by omega
      simp [hi, hj, hj2, Nat.ne_of_lt hi]
  · have hi2 : i.val = n := by omega
    by_cases hj : j.val < n
    · simp [hi, hj, hi2, Nat.ne_of_lt hj]
    · have hj2 : j.val = n := by omega
      simp [hi, hj, hi2, hj2]

/-- C1: for every gradient `g` and (symmetric) Hessian `H` of dimension `n`,
`RFOptimiser._step` builds the symmetric `(n+1)×(n+1)` augmented matrix with
top-left block `H`, last row and column (corner excluded) `g` and corner `0`,
and the raw step is the selected eigenvector's leading `n` components divided
by its final component, the division applied unguarded to every eigenvector. -/
theorem rfo_step_augmented_matrix {n : ℕ} (H : Fin n → Fin n → ℚ)
    (g : Fin n → ℚ) (hH : ∀ i j, H i j = H j i) :
    (∀ i j : Fin n, aug_H H g i.castSucc j.castSucc = H i j) ∧
    (∀ j : Fin n, aug_H H g (Fin.last n) j.castSucc = g j) ∧
    (∀ i : Fin n, aug_H H g i.castSucc (Fin.last n) = g i) ∧
    aug_H H g (Fin.last n) (Fin.last n) = 0 ∧
    (∀ i j, aug_H H g i j = aug_H H g j i) ∧
    (∀ (v : Fin (n + 1) → ℚ) (i : Fin n),
      delta_s v i = v i.castSucc / v (Fin.last n)) :=
  ⟨aug_H_top_left H g, aug_H_last_row H g, aug_H_last_col H g,
    aug_H_corner H g, aug_H_symm H g hH, fun _ _ => rfl⟩

/-- C1 witness: the augmented-matrix and step properties at the concrete
symmetric input `n = 1`, `H = [[2]]`, `g = [3]`. -/
theorem rfo_step_augmented_matrix_witness :
    (∀ i j : Fin 1,
      aug_H (fun _ _ => (2 : ℚ)) (fun _ => 3) i.castSucc j.castSucc = 2) ∧
    (∀ j : Fin 1,
      aug_H (fun _ _ => (2 : ℚ)) (fun _ => 3) (Fin.last 1) j.castSucc = 3) ∧
    (∀ i : Fin 1,
      aug_H (fun _ _ => (2 : ℚ)) (fun _ => 3) i.castSucc (Fin.last 1) = 3) ∧
    aug_H (fun _ _ => (2 : ℚ)) (fun _ => 3) (Fin.last 1) (Fin.last 1) = 0 ∧
    (∀ i j : Fin 2, aug_H (n := 1) (fun _ _ => (2 : ℚ)) (fun _ => 3) i j
      = aug_H (fun _ _ => (2 : ℚ)) (fun _ => 3) j i) ∧
    (∀ (v : Fin 2 → ℚ) (i : Fin 1),
      delta_s v i = v i.castSucc / v (Fin.last 1)) :=
  rfo_step_augmented_matrix (fun _ _ => (2 : ℚ)) (fun _ => 3)
    (fun _ _ => rfl)

/-! ### RFO mode selection (`RFOptimiser._step`, C2) -/

/-- C2 counterexample: on the ascending eigenvalue list `[-5, 1]` (the
ordering `np.linalg.eigh` returns; realised e.g. by the `n = 1` augmented
Hessian with `H = [[-4]]` and `g = [√5]`), the code selects index 0, the
eigenvalue `-5`, although index 1 holds a nonzero eigenvalue of strictly
smaller magnitude — so the selected mode is not the lowest-magnitude nonzero
eigenvalue. -/
theorem select_mode_not_lowest_magnitude :
    List.Chain' (· ≤ ·) [(-5 : ℚ), 1] ∧
    select_mode [(-5 : ℚ), 1] = some 0 ∧
    1 / 10 ^ 16 < |([(-5 : ℚ), 1].getD 1 0)| ∧
    |([(-5 : ℚ), 1].getD 1 0)| < |([(-5 : ℚ), 1].getD 0 0)| := by
  refine ⟨by norm_num [List.chain'_cons], by norm_num [select_mode],
    by norm_num, by norm_num⟩

/-- C2 amended: `select_mode` returns the index of the first eigenvalue in
the ascending list whose magnitude exceeds `1e-16`; every earlier eigenvalue
is treated as numerical zero, and the selected eigenvalue is the lowest
(most negative) — not the lowest-magnitude — eigenvalue among those whose
magnitude exceeds the threshold. -/
theorem select_mode_first_above_threshold :
    ∀ (lmda : List ℚ) (k : ℕ), select_mode lmda = some k →
    List.Chain' (· ≤ ·) lmda →
    k < lmda.length ∧ 1 / 10 ^ 16 < |lmda.getD k 0| ∧
    (∀ j, j < k → |lmda.getD j 0| ≤ 1 / 10 ^ 16) ∧
    (∀ j, j < lmda.length → 1 / 10 ^ 16 < |lmda.getD j 0| →
      lmda.getD k 0 ≤ lmda.getD j 0) := by
  intro lmda
  induction lmda with
  | nil => intro k hk; simp [select_mode] at hk
  | cons x xs ih =>
    intro k hk hc
    by_cases hx : 1 / 10 ^ 16 < |x|
    · simp only [select_mode, if_pos hx, Option.some.injEq] at hk
      subst hk
      refine ⟨Nat.succ_pos _, by simpa using hx,
        fun j hj => absurd hj (Nat.not_lt_zero j), ?_⟩
      intro j hj _
      match j with
      | 0 => exact le_refl _
      | j' + 1 =>
        have hlt : j' < xs.length := by simpa using hj
        have hpw := List.chain'_iff_pairwise.mp hc
        have hmem : xs.getD j' 0 ∈ xs := by
          rw [List.getD_eq_getElem xs 0 hlt]
          exact List.getElem_mem hlt
        simpa using (List.pairwise_cons.mp hpw).1 _ hmem
    · simp only [select_mode, if_neg hx] at hk
      obtain ⟨k', hk', rfl⟩ := Option.map_eq_some'.mp hk
      obtain ⟨h1, h2, h3, h4⟩ := ih k' hk' (List.Chain'.tail hc)
      refine ⟨by simpa using h1, by simpa using h2, ?_, ?_⟩
      · intro j hj
        match j with
        | 0 => simpa using not_lt.mp hx
        | j' + 1 => simpa using h3 j' (by omega)
      · intro j hj hjv
        match j with
        | 0 => exact absurd (by simpa using hjv) hx
        | j' + 1 => simpa using h4 j' (by simpa using hj) (by simpa using hjv)

/-- C2 witness: on the ascending list `[0, 2]` the code skips the numerical
zero at index 0 and selects index 1, the lowest eigenvalue of magnitude
above the threshold. -/
theorem select_mode_first_above_threshold_witness :
    1 < [(0 : ℚ), 2].length ∧ 1 / 10 ^ 16 < |[(0 : ℚ), 2].getD 1 0| ∧
    (∀ j, j < 1 → |[(0 : ℚ), 2].getD j 0| ≤ 1 / 10 ^ 16) ∧
    (∀ j, j < [(0 : ℚ), 2].length → 1 / 10 ^ 16 < |[(0 : ℚ), 2].getD j 0| →
      [(0 : ℚ), 2].getD 1 0 ≤ [(0 : ℚ), 2].getD j 0) :=
  select_mode_first_above_threshold [(0 : ℚ), 2] 1
    (by norm_num [select_mode])
    (by norm_num [List.chain'_cons, List.chain'_singleton])

/-! ### Trust-region controller (`RFOptimiser._take_step_within_trust_radius`)

Internal coordinates and steps are lists of rationals.  The non-linear
internal→Cartesian transformation lives in `autode.opt.coordinates`, which is
not part of the sources; following §4.1 of the spec it is modelled as an
arbitrary function parameter `toCart` (the spec fixes no further property of
it beyond being a — generally non-linear — coordinate map). -/

/-- `self._coords + factor * delta_s` : componentwise scaled addition. -/
def addScaled (coords : List ℚ) (factor : ℚ) (ds : List ℚ) : List ℚ :=
  List.zipWith (fun x d => x + factor * d) coords ds

/-- Componentwise difference of two coordinate vectors. -/
def subL (a b : List ℚ) : List ℚ := List.zipWith (· - ·) a b

/-- `np.max(np.abs(v))` : the largest absolute component (0 on the empty
vector, where numpy would raise). -/
def maxAbs (l : List ℚ) : ℚ := (l.map (fun x => |x|)).foldr max 0

/-- `RFOptimiser._take_step_within_trust_radius(delta_s, factor=1.0)` :
returns the pair (new stored coordinates, returned factor).  An empty step
returns immediately with factor `0`; otherwise the full step is applied
tentatively, the maximum absolute Cartesian component of the displacement is
measured, and if it exceeds `alpha` the step is rescaled by
`alpha / max_component` without re-measuring the rescaled displacement. -/
def take_step_within_trust_radius (toCart : List ℚ → List ℚ)
    (coords ds : List ℚ) (alpha factor : ℚ) : List ℚ × ℚ :=
  if ds.length = 0 then (coords, 0)
  else
    let new_coords := addScaled coords factor ds
    let cartesian_delta := subL (toCart new_coords) (toCart coords)
    let max_component := maxAbs cartesian_delta
    if alpha < max_component then
      (addScaled coords (alpha / max_component) ds, alpha / max_component)
    else (new_coords, factor)

/-- C5: constraining an empty step leaves the coordinates unchanged and
returns factor `0`, for every coordinate state, map, limit and incoming
factor. -/
theorem take_step_empty (toCart : List ℚ → List ℚ) (coords : List ℚ)
    (alpha factor : ℚ) :
    take_step_within_trust_radius toCart coords [] alpha factor
      = (coords, 0) := by
  simp [take_step_within_trust_radius]

/-- C4: for a non-empty raw step taken with the default incoming factor 1,
if the full displacement's maximum Cartesian component exceeds `alpha` the
returned state is the coordinates moved by the step scaled by exactly
`alpha / max_component` together with that ratio as factor; otherwise the
unscaled coordinates and factor `1`. -/
theorem take_step_scaling (toCart : List ℚ → List ℚ) (coords ds : List ℚ)
    (hne : ds ≠ []) :
    ∀ alpha : ℚ,
    (alpha < maxAbs (subL (toCart (addScaled coords 1 ds)) (toCart coords)) →
      take_step_within_trust_radius toCart coords ds alpha 1 =
        (addScaled coords
          (alpha / maxAbs (subL (toCart (addScaled coords 1 ds))
            (toCart coords))) ds,
         alpha / maxAbs (subL (toCart (addScaled coords 1 ds))
            (toCart coords)))) ∧
    (¬ alpha < maxAbs (subL (toCart (addScaled coords 1 ds)) (toCart coords)) →
      take_step_within_trust_radius toCart coords ds alpha 1 =
        (addScaled coords 1 ds, 1)) := by
  intro alpha
  have hlen : ¬ ds.length = 0 := by simpa using hne
  constructor
  · intro hgt
    simp [take_step_within_trust_radius, hlen, hgt]
  · intro hle
    simp [take_step_within_trust_radius, hlen, hle]

/-- C4 witness: with the identity map, coordinates `[0]`, step `[2]` and
limit `1`, the full displacement has maximum component `2 > 1`, so the
accepted coordinates are `[0 + (1/2)·2] = [1]` and the returned factor is
`1/2`; with limit `3` the step is accepted unscaled with factor `1`. -/
theorem take_step_scaling_witness :
    take_step_within_trust_radius id [(0 : ℚ)] [2] 1 1 = ([1], 1 / 2) ∧
    take_step_within_trust_radius id [(0 : ℚ)] [2] 3 1 = ([2], 1) := by
  have h := take_step_scaling id [(0 : ℚ)] [2] (by simp)
  constructor
  · have h1 := (h 1).1 (by norm_num [maxAbs, subL, addScaled])
    rw [h1]
    norm_num [maxAbs, subL, addScaled]
  · have h2 := (h 3).2 (by norm_num [maxAbs, subL, addScaled])
    rw [h2]
    norm_num [addScaled]

/-- Unfolding `maxAbs` on a cons cell. -/
lemma maxAbs_cons (x : ℚ) (l : List ℚ) :
    maxAbs (x :: l) = max |x| (maxAbs l) := rfl

/-- `maxAbs` scales absolutely homogeneously. -/
lemma maxAbs_map_mul (c : ℚ) (l : List ℚ) :
    maxAbs (l.map (fun x => c * x)) = |c| * maxAbs l := by
  induction l with
  | nil => simp [maxAbs]
  | cons x xs ih =>
    rw [List.map_cons, maxAbs_cons, maxAbs_cons, ih, abs_mul,
      mul_max_of_nonneg _ _ (abs_nonneg c)]

/-- The maximum absolute component of a vector's difference with itself. -/
lemma maxAbs_subL_self (l : List ℚ) : maxAbs (subL l l) = 0 := by
  induction l with
  | nil => rfl
  | cons x xs ih =>
    have h : subL (x :: xs) (x :: xs) = (x - x) :: subL xs xs := rfl
    rw [h, maxAbs_cons, ih, sub_self, abs_zero, max_self]

/-- A non-linear internal→Cartesian map with a kink at `1/2`: admissible
under the spec's coordinate-map contract (§4.1 fixes no bound on the map's
non-linearity), and exposing that the rescaled step is never re-measured. -/
def toCartKink : List ℚ → List ℚ :=
  fun s => s.map (fun x => if x = 1 / 2 then 100 else x)

/-- C3 counterexample: with the non-linear map `toCartKink`, coordinates
`[0]`, raw step `[1]` and limit `L = 1/2`, the full step's displacement has
maximum component `1 > 1/2`, the controller rescales by `(1/2)/1` and accepts
coordinates `[1/2]` — whose actual Cartesian displacement has maximum
component `100`, exceeding `L` by `99.5`: the accepted displacement is not
bounded by `L` plus any small tolerance. -/
theorem trust_radius_bound_cex :
    maxAbs (subL
        (toCartKink (take_step_within_trust_radius toCartKink
          [(0 : ℚ)] [1] (1 / 2) 1).1)
        (toCartKink [(0 : ℚ)])) = 100 ∧
    (1 / 2 : ℚ) + 99 < 100 := by
  constructor
  · norm_num [take_step_within_trust_radius, toCartKink, maxAbs, subL,
      addScaled]
  · norm_num

/-- C3 amended: for a step whose dimension matches the coordinates and a
nonnegative limit, (i) the accepted coordinates equal the full (raw) step's
coordinates exactly whenever the full displacement's maximum Cartesian
component is at most `alpha`, for every map; and (ii) when the Cartesian
displacement scales linearly with the step factor (as for a linear map) the
accepted displacement's maximum component is at most `alpha`.  For a general
non-linear map the code does not re-measure the rescaled step, and no bound
`alpha` plus a small tolerance holds (see the counterexample). -/
theorem trust_radius_bound (toCart : List ℚ → List ℚ) (coords ds : List ℚ)
    (alpha : ℚ) (hdim : ds.length = coords.length) (halpha : 0 ≤ alpha)
    (hhom : ∀ f : ℚ, subL (toCart (addScaled coords f ds)) (toCart coords)
      = (subL (toCart (addScaled coords 1 ds)) (toCart coords)).map
          (fun x => f * x)) :
    (¬ alpha < maxAbs (subL (toCart (addScaled coords 1 ds)) (toCart coords)) →
      (take_step_within_trust_radius toCart coords ds alpha 1).1
        = addScaled coords 1 ds) ∧
    maxAbs (subL
        (toCart (take_step_within_trust_radius toCart coords ds alpha 1).1)
        (toCart coords)) ≤ alpha := by
  by_cases hlen : ds.length = 0
  · have hds : ds = [] := List.length_eq_zero.mp hlen
    have hcs : coords = [] := by
      subst hds; exact List.length_eq_zero.mp (hdim.symm)
    subst hds; subst hcs
    constructor
    · intro _; simp [take_step_within_trust_radius, addScaled]
    · have h : (take_step_within_trust_radius toCart [] [] alpha 1).1 = [] :=
        by simp [take_step_within_trust_radius]
      rw [h, maxAbs_subL_self]
      exact halpha
  · set m := maxAbs (subL (toCart (addScaled coords 1 ds)) (toCart coords))
      with hm
    by_cases hgt : alpha < m
    · constructor
      · intro h; exact absurd hgt h
      · have hres :
            (take_step_within_trust_radius toCart coords ds alpha 1).1
              = addScaled coords (alpha / m) ds := by
          simp [take_step_within_trust_radius, hlen, ← hm, hgt]
        rw [hres, hhom (alpha / m), maxAbs_map_mul, ← hm]
        have hmpos : 0 < m := lt_of_le_of_lt halpha hgt
        rw [abs_of_nonneg (div_nonneg halpha (le_of_lt hmpos))]
        rw [div_mul_cancel₀ alpha (ne_of_gt hmpos)]
    · have hres :
          (take_step_within_trust_radius toCart coords ds alpha 1).1
            = addScaled coords 1 ds := by
        simp [take_step_within_trust_radius, hlen, ← hm, hgt]
      exact ⟨fun _ => hres, by rw [hres, ← hm]; exact not_lt.mp hgt⟩

/-- C3 witness: the amended bound at the identity map with coordinates `[0]`,
step `[2]` and limit `1`: the hypotheses hold and the accepted displacement's
maximum component is within the limit. -/
theorem trust_radius_bound_witness :
    (¬ (1 : ℚ) < maxAbs (subL (id (addScaled [(0 : ℚ)] 1 [2])) (id [(0 : ℚ)]))
      → (take_step_within_trust_radius id [(0 : ℚ)] [2] 1 1).1
          = addScaled [(0 : ℚ)] 1 [2]) ∧
    maxAbs (subL (id (take_step_within_trust_radius id [(0 : ℚ)] [2] 1 1).1)
        (id [(0 : ℚ)])) ≤ 1 :=
  trust_radius_bound id [(0 : ℚ)] [2] 1 rfl (by norm_num)
    (by intro f; simp [subL, addScaled])

/-! ### Driver initialisation (`RFOptimiser._initialise_run`, C6)

The coordinate class (`autode.opt.coordinates`) is not among the sources;
its four methods used by `_initialise_run` are modelled as labelled
transitions on an abstract optimiser state, each recording its event and its
spec-described effect on the Hessian flags.  The call order is taken from the
source of `_initialise_run`. -/

/-- The observable events of `RFOptimiser._initialise_run`. -/
inductive InitEvent where
  | toDIC
  | lowLevelHessian
  | updateHFromCart
  | makePositiveDefinite
  | gradientAndEnergy
deriving DecidableEq

/-- Abstract optimiser state during initialisation. -/
structure OptState where
  reprIsDIC : Bool
  hessianInitialised : Bool
  hessianPositiveDefinite : Bool
  pdAtGradientRequest : Option Bool
  trace : List InitEvent

/-- `CartesianCoordinates(self._species.coordinates).to("dic")`.
Modelled from the spec: `fromCartesian` builds the internal (DIC)
representation (§4.1); the coordinate class is not among the sources. -/
def to_dic (s : OptState) : OptState :=
  { s with reprIsDIC := true, trace := s.trace ++ [InitEvent.toDIC] }

/-- `self._low_level_cart_hessian` : the low-level oracle Hessian call
(evaluated before `update_h_from_cart_h` receives its value). -/
def low_level_cart_hessian (s : OptState) : OptState :=
  { s with trace := s.trace ++ [InitEvent.lowLevelHessian] }

/-- `self._coords.update_h_from_cart_h(...)`.
Modelled from the spec: transforms a Cartesian Hessian into the internal
representation (§4.1); the transformed Hessian is not yet known positive
definite. -/
def update_h_from_cart_h (s : OptState) : OptState :=
  { s with hessianInitialised := true, hessianPositiveDefinite := false,
           trace := s.trace ++ [InitEvent.updateHFromCart] }

/-- `self._coords.make_hessian_positive_definite()`.
Modelled from the spec: shifts non-positive Hessian eigenvalues up to a
positive floor and reconstructs the matrix, leaving the stored Hessian
positive definite (§4.1). -/
def make_hessian_positive_definite (s : OptState) : OptState :=
  { s with hessianPositiveDefinite := true,
           trace := s.trace ++ [InitEvent.makePositiveDefinite] }

/-- `self._update_gradient_and_energy()` : the first energy/gradient oracle
request; records whether the stored Hessian was positive definite at the
moment of the request. -/
def update_gradient_and_energy (s : OptState) : OptState :=
  { s with pdAtGradientRequest := some s.hessianPositiveDefinite,
           trace := s.trace ++ [InitEvent.gradientAndEnergy] }

/-- `RFOptimiser._initialise_run` : the four statements of the source, in
source order. -/
def initialise_run (s : OptState) : OptState :=
  update_gradient_and_energy
    (make_hessian_positive_definite
      (update_h_from_cart_h
        (low_level_cart_hessian (to_dic s))))

/-- C6: from any starting state with an empty event trace, initialisation
performs, in order: conversion to DIC, the low-level Hessian oracle call,
transformation of that Hessian into the internal representation, coercion to
positive definite, and only then the first energy/gradient request — at which
moment the stored Hessian is positive definite. -/
theorem initialise_run_order (s : OptState) (h : s.trace = []) :
    (initialise_run s).trace =
      [InitEvent.toDIC, InitEvent.lowLevelHessian, InitEvent.updateHFromCart,
       InitEvent.makePositiveDefinite, InitEvent.gradientAndEnergy] ∧
    (initialise_run s).pdAtGradientRequest = some true ∧
    (initialise_run s).reprIsDIC = true ∧
    (initialise_run s).hessianInitialised = true := by
  simp [initialise_run, update_gradient_and_energy,
    make_hessian_positive_definite, update_h_from_cart_h,
    low_level_cart_hessian, to_dic, h]

/-- C6 witness: the initialisation trace and flags from the fresh state. -/
theorem initialise_run_order_witness :
    (initialise_run ⟨false, false, false, none, []⟩).trace =
      [InitEvent.toDIC, InitEvent.lowLevelHessian, InitEvent.updateHFromCart,
       InitEvent.makePositiveDefinite, InitEvent.gradientAndEnergy] ∧
    (initialise_run ⟨false, false, false, none, []⟩).pdAtGradientRequest
      = some true ∧
    (initialise_run ⟨false, false, false, none, []⟩).reprIsDIC = true ∧
    (initialise_run ⟨false, false, false, none, []⟩).hessianInitialised
      = true :=
  initialise_run_order ⟨false, false, false, none, []⟩ rfl

/-! ### Decorators (`autode/utils.py`, C7 and C9)

The process state is the current working directory and the set of existing
directories.  A Python callable is modelled as a map from process state to a
final process state together with either a returned value or a raised
exception; the process state survives a raise (Python's cwd is global). -/

/-- The process state touched by `work_in`. -/
structure PyState where
  cwd : String
  dirs : List String
deriving DecidableEq

/-- `work_in(dir_ext)` applied to `func`: record the current directory,
create the target directory if absent, `chdir` into it, run `func`, and
`chdir` back — the final `chdir` is executed only on normal return (the
source has no `try/finally`), and the wrapper returns `None`, discarding
`func`'s value. -/
def work_in {V : Type} (dirExt : String)
    (func : PyState → PyState × Except String V) (s : PyState) :
    PyState × Except String (Option V) :=
  let here := s.cwd
  let dirPath := here ++ "/" ++ dirExt
  let s1 := if dirPath ∈ s.dirs then s else { s with dirs := dirPath :: s.dirs }
  let s2 := { s1 with cwd := dirPath }
  match func s2 with
  | (s3, Except.ok _) => ({ s3 with cwd := here }, Except.ok none)
  | (s3, Except.error e) => (s3, Except.error e)

/-- `requires_atoms` applied to `func`: raise `NoAtomsInMolecule` when the
species has no atoms, otherwise run `func` and return `None`, discarding its
value. -/
def requires_atoms {V : Type} (func : ℕ → PyState → PyState × Except String V)
    (nAtoms : ℕ) (s : PyState) : PyState × Except String (Option V) :=
  if nAtoms = 0 then (s, Except.error "NoAtomsInMolecule")
  else
    match func nAtoms s with
    | (s2, Except.ok _) => (s2, Except.ok none)
    | (s2, Except.error e) => (s2, Except.error e)

/-- An oracle call that raises, with the state at the raise point. -/
def raisingOracle : PyState → PyState × Except String Unit :=
  fun s => (s, Except.error "CalculationException")

/-- C7 evaluation at the failing input: a wrapped function that raises.
From cwd `/home` with `dir_ext = "scratch"`, the wrapper creates and enters
`/home/scratch` and propagates the exception, leaving the working directory
at `/home/scratch` — not restored to `/home`.  (On normal return the
directory is restored; the source's `os.chdir(here)` is simply never reached
on a raise, there being no `try/finally`.) -/
theorem work_in_not_restored_on_raise :
    (work_in "scratch" raisingOracle ⟨"/home", ["/home"]⟩).1.cwd
      = "/home/scratch" ∧
    (work_in "scratch" raisingOracle ⟨"/home", ["/home"]⟩).2
      = Except.error "CalculationException" ∧
    "/home/scratch" ∈
      (work_in "scratch" raisingOracle ⟨"/home", ["/home"]⟩).1.dirs ∧
    (work_in "scratch"
        (fun s => (s, Except.ok ())) ⟨"/home", ["/home"]⟩).1.cwd
      = "/home" ∧
    "/home/scratch" ≠ "/home" := by
  refine ⟨rfl, rfl, ?_, rfl, by decide⟩
  simp [work_in, raisingOracle]

/-- C9: whenever either wrapper returns normally, the returned value is
`None`, whatever value the wrapped function produced. -/
theorem wrappers_return_none {V : Type} (dirExt : String)
    (f : PyState → PyState × Except String V)
    (g : ℕ → PyState → PyState × Except String V)
    (s : PyState) (nAtoms : ℕ) (x y : Option V)
    (hf : (work_in dirExt f s).2 = Except.ok x)
    (hg : (requires_atoms g nAtoms s).2 = Except.ok y) :
    x = none ∧ y = none := by
  constructor
  · rw [work_in] at hf
    rcases h : f { (if s.cwd ++ "/" ++ dirExt ∈ s.dirs then s
        else { s with dirs := (s.cwd ++ "/" ++ dirExt) :: s.dirs }) with
          cwd := s.cwd ++ "/" ++ dirExt } with ⟨s3, v⟩
    rw [h] at hf
    cases v with
    | ok v => simpa using hf.symm
    | error e => simp at hf
  · rw [requires_atoms] at hg
    by_cases hn : nAtoms = 0
    · simp [hn] at hg
    · rw [if_neg hn] at hg
      rcases h : g nAtoms s with ⟨s2, v⟩
      rw [h] at hg
      cases v with
      | ok v => simpa using hg.symm
      | error e => simp at hg

/-- C9 witness: both wrappers applied to functions returning `42` yield
`None`. -/
theorem wrappers_return_none_witness :
    (none : Option ℕ) = none ∧ (none : Option ℕ) = none :=
  wrappers_return_none "tmp" (fun s => (s, Except.ok 42))
    (fun _ s => (s, Except.ok 42)) ⟨"/home", ["/home"]⟩ 3 none none rfl rfl

/-! ### Conformer deduplication (`generate_unique_rdkit_confs`, C8 and C10)

`AllChem.EmbedMultipleConfs` is an external rdkit call; it is modelled as
producing the conformer ids `0, …, n-1`.  `rdMolAlign.AlignMol(mol, mol,
prbCid=a, refCid=b)` is modelled as an abstract function
`rmsd : ℕ → ℕ → ℚ` of the two conformer ids. -/

/-- The inner loop `for j in ...: if AlignMol(prbCid=j, refCid=i) < 0.5:
is_unique = False; break` over a given list of probe ids. -/
def innerCheck (rmsd : ℕ → ℕ → ℚ) (i : ℕ) : List ℕ → Bool
  | [] => true
  | j :: js => if rmsd j i < 1 / 2 then false else innerCheck rmsd i js

/-- One iteration of the outer loop, accumulating `unique_conf_ids`; the
probe ids compared against are `range(len(unique_conf_ids))` — the loop
index `j` itself, exactly as in the source. -/
def addCandidate (rmsd : ℕ → ℕ → ℚ) (u : List ℕ) (i : ℕ) : List ℕ :=
  if innerCheck rmsd i (List.range u.length) then u ++ [i] else u

/-- `generate_unique_rdkit_confs(mol_obj, n_rdkit_confs)` with `n` embedded
conformers: start from `unique_conf_ids = [0]` and consider candidates
`1, …, n-1` in order. -/
def generate_unique_rdkit_confs (rmsd : ℕ → ℕ → ℚ) (n : ℕ) : List ℕ :=
  ((List.range n).drop 1).foldl (addCandidate rmsd) [0]

/-- The by-reference variant the spec contrasts with: probe ids are the
members `unique_conf_ids[j]` of the accumulated unique set. -/
def addCandidateByMember (rmsd : ℕ → ℕ → ℚ) (u : List ℕ) (i : ℕ) : List ℕ :=
  if innerCheck rmsd i u then u ++ [i] else u

/-- `generate_unique_rdkit_confs` with the comparison taken against the
accumulated unique set by reference instead of the loop index. -/
def generate_unique_by_member (rmsd : ℕ → ℕ → ℚ) (n : ℕ) : List ℕ :=
  ((List.range n).drop 1).foldl (addCandidateByMember rmsd) [0]

/-- A concrete rmsd table on which the index-based and member-based
comparisons disagree: conformer 1 duplicates 0 and conformer 3 duplicates
conformer id 1 only — id 1 is not in the unique set, but index 1 is probed. -/
def rmsdW : ℕ → ℕ → ℚ :=
  fun a b => if (a = 0 ∧ b = 1) ∨ (a = 1 ∧ b = 3) then 0 else 1

/-- C8: the candidate test of the deduplication loop probes the loop indices
`0, …, len(unique_conf_ids)-1` themselves (first conjunct: the break-loop of
the source equals the index-set test, for every rmsd table and accumulated
set), not the members of the accumulated unique set: on `rmsdW` with four
conformers the source's loop rejects candidate 3 against probe index 1 and
returns `[0, 2]`, while the member-based comparison would return
`[0, 2, 3]`. -/
theorem dedup_compares_against_index (rmsd : ℕ → ℕ → ℚ) (u : List ℕ)
    (i : ℕ) :
    (innerCheck rmsd i (List.range u.length)
      = (List.range u.length).all (fun j => !decide (rmsd j i < 1 / 2))) ∧
    generate_unique_rdkit_confs rmsdW 4 = [0, 2] ∧
    generate_unique_by_member rmsdW 4 = [0, 2, 3] := by
  refine ⟨?_,
    by norm_num [generate_unique_rdkit_confs, addCandidate, innerCheck,
      rmsdW, List.range_succ],
    by norm_num [generate_unique_by_member, addCandidateByMember, innerCheck,
      rmsdW, List.range_succ]⟩
  generalize List.range u.length = js
  induction js with
  | nil => rfl
  | cons j js ih =>
    by_cases h : rmsd j i < 1 / 2
    · rw [innerCheck, if_pos h, List.all_cons, decide_eq_true h]
      rfl
    · rw [innerCheck, if_neg h, List.all_cons, decide_eq_false h, ih]
      rfl

/-- C8 witness: the inner-loop characterisation at a concrete rmsd table and
accumulated set, together with the concrete disagreement. -/
theorem dedup_compares_against_index_witness :
    (innerCheck rmsdW 3 (List.range [0, 2].length)
      = (List.range [0, 2].length).all
          (fun j => !decide (rmsdW j 3 < 1 / 2))) ∧
    generate_unique_rdkit_confs rmsdW 4 = [0, 2] ∧
    generate_unique_by_member rmsdW 4 = [0, 2, 3] :=
  dedup_compares_against_index rmsdW [0, 2] 3

/-- Invariant of the deduplication fold: a non-empty accumulated list that
starts with `0`, is strictly increasing and precedes all remaining
candidates stays so, whatever the rmsd table decides. -/
lemma foldl_addCandidate_inv (rmsd : ℕ → ℕ → ℚ) :
    ∀ (is : List ℕ) (u : List ℕ), u ≠ [] → u.head? = some 0 →
    List.Pairwise (· < ·) u → (∀ x ∈ u, ∀ i ∈ is, x < i) →
    List.Pairwise (· < ·) is →
    (is.foldl (addCandidate rmsd) u ≠ [] ∧
     (is.foldl (addCandidate rmsd) u).head? = some 0 ∧
     List.Pairwise (· < ·) (is.foldl (addCandidate rmsd) u)) := by
  intro is
  induction is with
  | nil => intro u h1 h2 h3 _ _; exact ⟨h1, h2, h3⟩
  | cons i is ih =>
    intro u h1 h2 h3 h4 h5
    rw [List.foldl_cons]
    have hlt : ∀ x ∈ u, x < i := fun x hx => h4 x hx i (List.mem_cons_self i is)
    have hrest : ∀ i' ∈ is, i < i' := (List.pairwise_cons.mp h5).1
    apply ih
    · by_cases hc : innerCheck rmsd i (List.range u.length) = true
      · simp [addCandidate, hc]
      · simpa [addCandidate, hc] using h1
    · by_cases hc : innerCheck rmsd i (List.range u.length) = true
      · rw [addCandidate, if_pos hc, List.head?_append]
        rw [h2]; rfl
      · simpa [addCandidate, hc] using h2
    · by_cases hc : innerCheck rmsd i (List.range u.length) = true
      · rw [addCandidate, if_pos hc, List.pairwise_append]
        exact ⟨h3, List.pairwise_singleton _ _,
          fun x hx y hy => (List.mem_singleton.mp hy) ▸ hlt x hx⟩
      · simpa [addCandidate, hc] using h3
    · intro x hx i' hi'
      have hx' : x ∈ u ∨ x = i := by
        by_cases hc : innerCheck rmsd i (List.range u.length) = true
        · rw [addCandidate, if_pos hc] at hx
          rcases List.mem_append.mp hx with h | h
          · exact Or.inl h
          · exact Or.inr (List.mem_singleton.mp h)
        · rw [addCandidate, if_neg hc] at hx
          exact Or.inl hx
      rcases hx' with h | h
      · exact h4 x h i' (List.mem_cons_of_mem i hi')
      · exact h ▸ hrest i' hi'
    · exact (List.pairwise_cons.mp h5).2

/-- C10: for every rmsd table and every requested conformer count, the
returned conformer-id list is non-empty, strictly increasing, and its first
element is `0`: the first generated conformer is retained unconditionally
(the accumulator is initialised to `[0]` before any rmsd comparison). -/
theorem generate_unique_confs_invariant (rmsd : ℕ → ℕ → ℚ) (n : ℕ) :
    generate_unique_rdkit_confs rmsd n ≠ [] ∧
    (generate_unique_rdkit_confs rmsd n).head? = some 0 ∧
    List.Pairwise (· < ·) (generate_unique_rdkit_confs rmsd n) := by
  have hmem : ∀ i ∈ (List.range n).drop 1, 0 < i := by
    cases n with
    | zero => intro i hi; simp at hi
    | succ m =>
      intro i hi
      rw [List.range_succ_eq_map, List.drop_succ_cons, List.drop_zero] at hi
      obtain ⟨k, _, rfl⟩ := List.mem_map.mp hi
      exact Nat.succ_pos k
  have hpw : List.Pairwise (· < ·) ((List.range n).drop 1) :=
    List.Pairwise.sublist (List.drop_sublist 1 _) (List.pairwise_lt_range n)
  refine foldl_addCandidate_inv rmsd ((List.range n).drop 1) [0]
    (by simp) rfl (List.pairwise_singleton _ _) ?_ hpw
  intro x hx i hi
  rw [List.mem_singleton] at hx
  subst hx
  exact hmem i hi

end AutodE
